import Mathlib

set_option maxRecDepth 1000000
set_option maxHeartbeats 4000000

/-!
Shallow embedding of the fetch-cache-dedupe-notify pipeline of the
Twitter Monitoring Bot (src/index.js, v12.1; the v13.1 variant in
src/unnamed/part_000 shares the cache and retry logic).

Conventions of the embedding:
* JS timestamps (Date.now()) are Nat values supplied by the caller.
* A tweet id is `Option String`: `none` models a null/undefined id
  (fetchNitter produces `id: match ? match[1] : null`).  JS truthiness
  of an id is `idTruthy` (null/undefined and the empty string are falsy).
* A JS `Set` is an insertion-ordered duplicate-free list; `Set.add`
  appends when the element is absent.
* A JS object used as a map is an association list; an absent key reads
  as a falsy value.
* The single-threaded event loop is modelled by running the per-account
  tasks of a cycle sequentially in list order (the `MAX_CONCURRENT`
  batches concatenate back to the full account list, and all state
  updates happen between suspension points).
* Fallible sends and fetches are oracles: a `Transport` says whether a
  given send succeeds, and fetch results are `Option FetchResult`.
-/

namespace V12

/-- One normalized post item, the shape produced by `fetchSotwe` /
`fetchNitter` (`{ id, text, createdAt, media, source }`; the per-item
`source` tag plays no role in the pipeline and is dropped). -/
structure Tweet where
  id : Option String
  text : String
  createdAt : Nat
  media : List String
deriving Repr, DecidableEq

/-- Result of one successful fetch: `{ source, items }`. -/
structure FetchResult where
  source : String
  items : List Tweet
deriving Repr, DecidableEq

/-- JS truthiness of a tweet id: `!tweet.id` is true exactly when the id
is null/undefined (`none`) or the empty string. -/
def idTruthy : Option String → Bool
  | none => false
  | some s => s != ""

/-- `Set.add`: append the element when absent (JS sets keep insertion
order and never hold duplicates). -/
def setAdd (x : Option String) (s : List (Option String)) : List (Option String) :=
  if x ∈ s then s else s ++ [x]

/-- `userBootstrapState`: a JS object mapping account name to a boolean. -/
abbrev BootMap := List (String × Bool)

/-- Reading `userBootstrapState[user]` with JS truthiness: an absent key
is falsy. -/
def bootGet (m : BootMap) (u : String) : Bool :=
  match m.find? (fun p => p.1 == u) with
  | some p => p.2
  | none => false

/-- `userBootstrapState[user] = true`. -/
def bootSetTrue (m : BootMap) (u : String) : BootMap :=
  if m.any (fun p => p.1 == u) then
    m.map (fun p => if p.1 == u then (u, true) else p)
  else
    m ++ [(u, true)]

/-- `delete userBootstrapState[user]`. -/
def bootDelete (m : BootMap) (u : String) : BootMap :=
  m.filter (fun p => p.1 != u)

/-- Outcome oracle for the chat transport: whether `bot.sendPhoto` resp.
`bot.sendMessage` succeeds for a given account and tweet. -/
structure Transport where
  sendPhotoOk : String → Tweet → Bool
  sendMessageOk : String → Tweet → Bool

/-- The notification send of `checkFeeds`: with media, `sendPhoto` with a
`.catch` falling back to `sendMessage`; without media, `sendMessage`.
The result is whether the awaited send finally succeeded (a failure of
both paths raises into the surrounding try/catch). -/
def sendTweet (tr : Transport) (user : String) (t : Tweet) : Bool :=
  if 0 < t.media.length then
    tr.sendPhotoOk user t || tr.sendMessageOk user t
  else
    tr.sendMessageOk user t

/-- Comparator of `tweets.items.sort((a, b) => a.createdAt - b.createdAt)`. -/
def tweetLE (a b : Tweet) : Prop := a.createdAt ≤ b.createdAt

instance : DecidableRel tweetLE := fun a b => Nat.decLe a.createdAt b.createdAt

instance : IsTotal Tweet tweetLE := ⟨fun a b => Nat.le_total a.createdAt b.createdAt⟩

instance : IsTrans Tweet tweetLE := ⟨fun _ _ _ h h2 => Nat.le_trans h h2⟩

/-- The ascending-by-creation-time sort of the fetched items.  JS
`Array.prototype.sort` with a numeric comparator is a stable sort, which
insertion sort realizes. -/
def sortTweets (l : List Tweet) : List Tweet := l.insertionSort tweetLE

/-- The per-tweet loop of `checkFeeds` over the sorted items of one
account.  State is the dedup set `sentTweetIds`; the second component of
the result lists the successfully sent notifications in emission order.
In first-run (bootstrap) mode a new id is recorded silently; otherwise a
send is attempted and the id recorded only when the send succeeded. -/
def processTweetList (tr : Transport) (user : String) (isFirstRun : Bool) :
    List (Option String) → List Tweet → List (Option String) × List Tweet
  | sent, [] => (sent, [])
  | sent, t :: rest =>
    if idTruthy t.id = false ∨ t.id ∈ sent then
      processTweetList tr user isFirstRun sent rest
    else if isFirstRun then
      processTweetList tr user isFirstRun (setAdd t.id sent) rest
    else if sendTweet tr user t then
      ((processTweetList tr user isFirstRun (setAdd t.id sent) rest).1,
       t :: (processTweetList tr user isFirstRun (setAdd t.id sent) rest).2)
    else
      processTweetList tr user isFirstRun sent rest

/-- The mutable state the scheduler owns: `sentTweetIds` and
`userBootstrapState`. -/
structure MonState where
  sent : List (Option String)
  boot : BootMap
deriving Repr, DecidableEq

/-- Processing of a single account inside `checkFeeds`: fetch, sort,
run the dedup/notify loop, and mark the account bootstrapped after its
first successful fetch.  A failed fetch leaves everything unchanged. -/
def processUser (tr : Transport) (fetchOf : String → Option FetchResult)
    (st : MonState) (user : String) : MonState × List Tweet :=
  match fetchOf user with
  | none => (st, [])
  | some tweets =>
    (⟨(processTweetList tr user (!bootGet st.boot user) st.sent (sortTweets tweets.items)).1,
      if bootGet st.boot user then st.boot else bootSetTrue st.boot user⟩,
     (processTweetList tr user (!bootGet st.boot user) st.sent (sortTweets tweets.items)).2)

/-- All accounts of one cycle, in order, with the emitted notifications
tagged by account.  The `MAX_CONCURRENT` batches of `checkFeeds`
partition this list and `Promise.allSettled` interleaves the async tasks
of a batch on the one event loop; the model serializes them. -/
def processUsers (tr : Transport) (fetchOf : String → Option FetchResult) :
    MonState → List String → MonState × List (String × Tweet)
  | st, [] => (st, [])
  | st, u :: rest =>
    ((processUsers tr fetchOf (processUser tr fetchOf st u).1 rest).1,
     (processUser tr fetchOf st u).2.map (fun t => (u, t)) ++
       (processUsers tr fetchOf (processUser tr fetchOf st u).1 rest).2)

/-- The inputs of one check cycle: send outcomes, fetch outcomes, and
the tracked-account list. -/
structure CycleEnv where
  tr : Transport
  fetchOf : String → Option FetchResult
  users : List String

def processCycle (env : CycleEnv) (st : MonState) : MonState × List (String × Tweet) :=
  processUsers env.tr env.fetchOf st env.users

/-- What one `checkFeeds` run does: final state, emission trace, the
`newCount` counter, whether the end-of-cycle save ran, and what it wrote
(the dedup set truncated to the most recent 2000 ids, and the bootstrap
map). -/
structure CycleOutcome where
  state : MonState
  trace : List (String × Tweet)
  newCount : Nat
  saved : Bool
  savedCache : Option (List (Option String))
  savedState : Option BootMap
deriving Repr

/-- `Array.from(sentTweetIds).slice(-2000)`. -/
def truncIds (l : List (Option String)) : List (Option String) :=
  l.drop (l.length - 2000)

/-- `checkFeeds`: run every account, then save when
`newCount > 0 || Object.keys(userBootstrapState).length > 0`
(note: the second disjunct tests non-emptiness of the bootstrap map, not
that it changed). -/
def checkFeeds (env : CycleEnv) (st : MonState) : CycleOutcome :=
  let r := processCycle env st
  let newCount := r.2.length
  let doSave := decide (0 < newCount) || decide (0 < r.1.boot.length)
  { state := r.1
    trace := r.2
    newCount := newCount
    saved := doSave
    savedCache := if doSave then some (truncIds r.1.sent) else none
    savedState := if doSave then some r.1.boot else none }

/-- A sequence of scheduled cycles, each with its own environment
(sources and transport behave differently over time, and the tracked
list may change between cycles). -/
def runCycles : MonState → List CycleEnv → MonState × List (String × Tweet)
  | st, [] => (st, [])
  | st, env :: rest =>
    ((runCycles (processCycle env st).1 rest).1,
     (processCycle env st).2 ++ (runCycles (processCycle env st).1 rest).2)

/-! ### Fetch orchestrator (`fetchTweets`)

`fetchTweets` wraps one logical attempt (`fetchSotwe`, then `fetchNitter`
on its failure; the v13.1 variant wraps `fetchNitter` alone in its own
`retry` loop with the same attempt count) in `pRetry` with
`retries: config.MAX_RETRIES`, and a surrounding catch that turns the
final failure into `null`.  The oracles give each attempt's outcome; the
model also counts the attempts that were made. -/

/-- `pRetry(run, { retries })` as used here: run attempt `i`; on failure
retry while fuel remains; the final failure is caught by the caller and
becomes `none`.  Returns the result and the total number of attempts. -/
def pRetryRun (run : Nat → Option FetchResult) : Nat → Nat → Option FetchResult × Nat
  | 0, i => (run i, i + 1)
  | fuel + 1, i =>
    match run i with
    | some v => (some v, i + 1)
    | none => pRetryRun run fuel (i + 1)

/-- `fetchTweets`: one attempt tries every configured source fetcher in
order (`fetchSotwe` first, `fetchNitter` second). -/
def fetchTweets (sotwe nitter : Nat → Option FetchResult) (maxRetries : Nat) :
    Option FetchResult × Nat :=
  pRetryRun (fun i => (sotwe i).orElse (fun _ => nitter i)) maxRetries 0

/-! ### SmartCache

The response cache of section 1 of index.js.  A JS `Map` is an
insertion-ordered association list whose `set` updates an existing key
in place.  `part_000` merges `get`'s two miss branches into one and
evicts `floor(size * 0.2)` entries instead of the constant `200`; both
agree at every size reachable after a single insertion into a cache of
at most 1000 entries. -/

/-- A cache entry `{ data, timestamp }`. -/
structure CacheEntry (α : Type) where
  data : α
  timestamp : Nat
deriving Repr, DecidableEq

/-- `this.cache` plus `this.ttl` and `this.stats`. -/
structure SmartCache (κ α : Type) where
  cache : List (κ × CacheEntry α)
  ttl : Nat
  hits : Nat
  misses : Nat
deriving Repr, DecidableEq

/-- The `new SmartCache(ttl)` constructor. -/
def SmartCache.new (ttl : Nat) : SmartCache κ α :=
  { cache := [], ttl := ttl, hits := 0, misses := 0 }

/-- `Map.prototype.set`: update in place when the key exists, append
otherwise. -/
def mapSet [DecidableEq κ] (l : List (κ × CacheEntry α)) (k : κ) (e : CacheEntry α) :
    List (κ × CacheEntry α) :=
  if l.any (fun p => decide (p.1 = k)) then
    l.map (fun p => if p.1 = k then (k, e) else p)
  else
    l ++ [(k, e)]

/-- `SmartCache.get(key)` at clock value `now`: a missing key or an
entry older than the TTL is a miss (the expired entry is deleted);
otherwise a hit returning the stored data. -/
def SmartCache.get [DecidableEq κ] (c : SmartCache κ α) (now : Nat) (k : κ) :
    Option α × SmartCache κ α :=
  match c.cache.find? (fun p => decide (p.1 = k)) with
  | none => (none, { c with misses := c.misses + 1 })
  | some p =>
    if c.ttl < now - p.2.timestamp then
      (none,
       { c with
         cache := c.cache.filter (fun q => decide (q.1 ≠ k)),
         misses := c.misses + 1 })
    else
      (some p.2.data, { c with hits := c.hits + 1 })

/-- Comparator of the eviction sort
`entries.sort((a, b) => a[1].timestamp - b[1].timestamp)`. -/
def entryLE (p q : κ × CacheEntry α) : Prop :=
  p.2.timestamp ≤ q.2.timestamp

instance : DecidableRel (entryLE (κ := κ) (α := α)) :=
  fun p q => Nat.decLe p.2.timestamp q.2.timestamp

instance : IsTotal (κ × CacheEntry α) entryLE :=
  ⟨fun p q => Nat.le_total p.2.timestamp q.2.timestamp⟩

instance : IsTrans (κ × CacheEntry α) entryLE :=
  ⟨fun _ _ _ h h2 => Nat.le_trans h h2⟩

/-- `SmartCache.set(key, data)` at clock value `now`: store, then if the
size exceeds 1000, delete the keys of the 200 entries with the oldest
timestamps. -/
def SmartCache.set [DecidableEq κ] (c : SmartCache κ α) (now : Nat) (k : κ) (v : α) :
    SmartCache κ α :=
  if 1000 < (mapSet c.cache k ⟨v, now⟩).length then
    { c with
      cache := (mapSet c.cache k ⟨v, now⟩).filter (fun p =>
        decide (p.1 ∉ (((mapSet c.cache k ⟨v, now⟩).insertionSort entryLE).take 200).map
          Prod.fst)) }
  else
    { c with cache := mapSet c.cache k ⟨v, now⟩ }

/-- The JS `Map` key-uniqueness invariant of `this.cache`. -/
def NodupKeys (l : List (κ × CacheEntry α)) : Prop :=
  (l.map Prod.fst).Nodup

instance [DecidableEq κ] {l : List (κ × CacheEntry α)} : Decidable (NodupKeys l) :=
  inferInstanceAs (Decidable ((l.map Prod.fst).Nodup))

/-- `getStats()`: hits, misses, size. -/
def SmartCache.getStats (c : SmartCache κ α) : Nat × Nat × Nat :=
  (c.hits, c.misses, c.cache.length)

/-- One recorded `set` call for replaying a whole history. -/
structure SetOp (κ α : Type) where
  now : Nat
  key : κ
  val : α

/-- A fresh cache after an arbitrary sequence of `set` calls. -/
def runSets [DecidableEq κ] (ttl : Nat) (ops : List (SetOp κ α)) : SmartCache κ α :=
  ops.foldl (fun c op => c.set op.now op.key op.val) (SmartCache.new ttl)

/-! ### Chat control handlers -/

/-- The whole mutable state the control surface touches:
`usersToMonitor`, `sentTweetIds`, `userBootstrapState`. -/
structure BotState where
  users : List String
  sent : List (Option String)
  boot : BootMap
deriving Repr, DecidableEq

/-- The add-account branch of the message handler (after validation):
push the new user, then fetch once and, when items came back, record
every item id into `sentTweetIds` unconditionally
(`tweets.items.forEach(t => sentTweetIds.add(t.id))`) and mark the
account bootstrapped. -/
def addUser (st : BotState) (newUser : String) (fetched : Option FetchResult) : BotState :=
  if newUser ∈ st.users then st
  else
    let st1 := { st with users := st.users ++ [newUser] }
    match fetched with
    | some tweets =>
      if 0 < tweets.items.length then
        { st1 with
          sent := tweets.items.foldl (fun s t => setAdd t.id s) st1.sent
          boot := bootSetTrue st1.boot newUser }
      else st1
    | none => st1

/-- The `RM_` callback handler: when the account is tracked, splice it
out of `usersToMonitor`, delete its bootstrap entry, and save the users
and state files; otherwise do nothing.  The second component lists the
files written. -/
def removeUser (st : BotState) (user : String) : BotState × List String :=
  if user ∈ st.users then
    ({ users := st.users.erase user,
       sent := st.sent,
       boot := bootDelete st.boot user },
     ["monitored_users.json", "user_state.json"])
  else
    (st, [])

/-- Number of notifications for a given id in an untagged emission list. -/
def countTweets (s : String) (l : List Tweet) : Nat :=
  (l.filter (fun t => t.id == some s)).length

/-- Number of notifications for a given id in a tagged emission trace. -/
def countId (s : String) (l : List (String × Tweet)) : Nat :=
  (l.filter (fun p => p.2.id == some s)).length

/-- Bookkeeping for the at-most-one-notification argument: across one
processing phase taking the dedup set from `sent` to `sent1` while
emitting `n` notifications for the id `s`, the notification count plus
the initial dedup credit stays at most one, membership in the dedup set
is preserved, and an emitted id ends up in the dedup set. -/
def NotifInv (s : String) (sent sent1 : List (Option String)) (n : Nat) : Prop :=
  n + (if some s ∈ sent then 1 else 0) ≤ 1
  ∧ (some s ∈ sent → some s ∈ sent1)
  ∧ (1 ≤ n → some s ∈ sent1)

/-! ### Concrete data for instantiating the theorems -/

/-- A transport whose sends always succeed. -/
def allOkTransport : Transport := ⟨fun _ _ => true, fun _ _ => true⟩

/-- A transport whose sends always fail. -/
def allFailTransport : Transport := ⟨fun _ _ => false, fun _ _ => false⟩

/-- Three items with ids 1, 2, 3, listed out of chronological order. -/
def demoItems : List Tweet :=
  [⟨some "2", "b", 2, []⟩, ⟨some "1", "a", 1, []⟩, ⟨some "3", "c", 3, []⟩]

/-- A fetch oracle producing `demoItems` for the account `alice`. -/
def demoFetch : String → Option FetchResult :=
  fun u => if u = "alice" then some ⟨"Sotwe", demoItems⟩ else none

/-- A 1001-entry cache with ascending timestamps, one insertion away
from triggering eviction. -/
def evictDemoCache : SmartCache Nat Nat :=
  { cache := (List.range 1001).map (fun i => (i, ⟨0, i⟩)), ttl := 30000,
    hits := 0, misses := 0 }

/-! ## Lemmas about the dedup set -/

theorem mem_setAdd {x y : Option String} {s : List (Option String)} :
    x ∈ setAdd y s ↔ x = y ∨ x ∈ s := by
  unfold setAdd
  split
  · rename_i h
    constructor
    · exact fun hx => Or.inr hx
    · rintro (rfl | hx)
      · exact h
      · exact hx
  · simp [List.mem_append, or_comm]

theorem subset_setAdd {y : Option String} {s : List (Option String)} :
    s ⊆ setAdd y s :=
  fun _ hx => mem_setAdd.mpr (Or.inr hx)

theorem self_mem_setAdd {y : Option String} {s : List (Option String)} :
    y ∈ setAdd y s :=
  mem_setAdd.mpr (Or.inl rfl)

/-! ## Lemmas about the per-account notify loop -/

theorem ptl_sent_mono (tr : Transport) (user : String) (fr : Bool)
    (l : List Tweet) (sent : List (Option String)) :
    sent ⊆ (processTweetList tr user fr sent l).1 := by
  induction l generalizing sent with
  | nil => exact fun _ hx => hx
  | cons t rest ih =>
    intro x hx
    simp only [processTweetList]
    split
    · exact ih sent hx
    · split
      · exact ih _ (subset_setAdd hx)
      · split
        · exact ih _ (subset_setAdd hx)
        · exact ih sent hx

theorem ptl_emitted_sublist (tr : Transport) (user : String) (fr : Bool)
    (l : List Tweet) (sent : List (Option String)) :
    List.Sublist (processTweetList tr user fr sent l).2 l := by
  induction l generalizing sent with
  | nil => simp [processTweetList]
  | cons t rest ih =>
    simp only [processTweetList]
    split
    · exact (ih sent).cons t
    · split
      · exact (ih _).cons t
      · split
        · exact (ih _).cons₂ t
        · exact (ih sent).cons t

theorem ptl_emitted_sent (tr : Transport) (user : String) (fr : Bool)
    (l : List Tweet) (sent : List (Option String)) :
    ∀ t ∈ (processTweetList tr user fr sent l).2,
      t.id ∈ (processTweetList tr user fr sent l).1 := by
  induction l generalizing sent with
  | nil => simp [processTweetList]
  | cons t rest ih =>
    intro u
    simp only [processTweetList]
    split
    · exact ih sent u
    · split
      · exact ih _ u
      · split
        · intro hu
          rcases List.mem_cons.mp hu with rfl | hu2
          · exact ptl_sent_mono tr user fr rest _ self_mem_setAdd
          · exact ih _ u hu2
        · exact ih sent u

theorem guard_true {t : Tweet} {sent : List (Option String)}
    (hg : ¬(idTruthy t.id = false ∨ t.id ∈ sent)) :
    idTruthy t.id = true ∧ t.id ∉ sent := by
  rcases not_or.mp hg with ⟨h1, h2⟩
  refine ⟨?_, h2⟩
  cases hb : idTruthy t.id
  · exact absurd hb h1
  · rfl

theorem ptl_first_run_emits_nothing (tr : Transport) (user : String)
    (l : List Tweet) (sent : List (Option String)) :
    (processTweetList tr user true sent l).2 = [] := by
  induction l generalizing sent with
  | nil => simp [processTweetList]
  | cons t rest ih =>
    simp only [processTweetList]
    split
    · exact ih sent
    · split
      · exact ih _
      · rename_i h
        exact absurd trivial h

theorem ptl_first_run_ids (tr : Transport) (user : String)
    (l : List Tweet) (sent : List (Option String)) :
    ∀ t ∈ l, idTruthy t.id = true → t.id ∈ (processTweetList tr user true sent l).1 := by
  induction l generalizing sent with
  | nil => simp
  | cons t rest ih =>
    intro u hu htr
    rcases List.mem_cons.mp hu with rfl | hu2
    · simp only [processTweetList]
      split
      · rename_i hg
        rcases hg with h1 | h2
        · rw [htr] at h1
          exact Bool.noConfusion h1
        · exact ptl_sent_mono tr user true rest sent h2
      · split
        · exact ptl_sent_mono tr user true rest _ self_mem_setAdd
        · rename_i h
          exact absurd trivial h
    · simp only [processTweetList]
      split
      · exact ih sent u hu2 htr
      · split
        · exact ih _ u hu2 htr
        · rename_i h
          exact absurd trivial h

theorem ptl_active_sent_iff (tr : Transport) (user : String)
    (l : List Tweet) (sent : List (Option String)) (x : Option String) :
    x ∈ (processTweetList tr user false sent l).1 ↔
      x ∈ sent ∨ ∃ t ∈ (processTweetList tr user false sent l).2, t.id = x := by
  induction l generalizing sent with
  | nil => simp [processTweetList]
  | cons t rest ih =>
    simp only [processTweetList]
    split
    · exact ih sent
    · split
      · rename_i h
        exact Bool.noConfusion h
      · split
        · rw [ih (setAdd t.id sent)]
          constructor
          · rintro (hx | ⟨u, hu, rfl⟩)
            · rcases mem_setAdd.mp hx with rfl | hx2
              · exact Or.inr ⟨t, List.mem_cons_self t _, rfl⟩
              · exact Or.inl hx2
            · exact Or.inr ⟨u, List.mem_cons_of_mem t hu, rfl⟩
          · rintro (hx | ⟨u, hu, rfl⟩)
            · exact Or.inl (subset_setAdd hx)
            · rcases List.mem_cons.mp hu with rfl | hu2
              · exact Or.inl self_mem_setAdd
              · exact Or.inr ⟨u, hu2, rfl⟩
        · exact ih sent

theorem ptl_added_truthy (tr : Transport) (user : String) (fr : Bool)
    (l : List Tweet) (sent : List (Option String)) (x : Option String) :
    x ∈ (processTweetList tr user fr sent l).1 → x ∈ sent ∨ idTruthy x = true := by
  induction l generalizing sent with
  | nil => intro h; exact Or.inl (by simpa [processTweetList] using h)
  | cons t rest ih =>
    simp only [processTweetList]
    split
    · exact ih sent
    · rename_i hg
      split
      · intro h
        rcases ih _ h with hx | htr
        · rcases mem_setAdd.mp hx with rfl | h2
          · exact Or.inr (guard_true hg).1
          · exact Or.inl h2
        · exact Or.inr htr
      · split
        · intro h
          rcases ih _ h with hx | htr
          · rcases mem_setAdd.mp hx with rfl | h2
            · exact Or.inr (guard_true hg).1
            · exact Or.inl h2
          · exact Or.inr htr
        · exact ih sent

theorem ptl_emitted_success (tr : Transport) (user : String)
    (l : List Tweet) (sent : List (Option String)) :
    ∀ t ∈ (processTweetList tr user false sent l).2,
      sendTweet tr user t = true ∧ idTruthy t.id = true := by
  induction l generalizing sent with
  | nil => simp [processTweetList]
  | cons t rest ih =>
    intro u
    simp only [processTweetList]
    split
    · exact ih sent u
    · rename_i hg
      split
      · rename_i h
        exact Bool.noConfusion h
      · split
        · intro hu
          rcases List.mem_cons.mp hu with rfl | hu2
          · exact ⟨by assumption, (guard_true hg).1⟩
          · exact ih _ u hu2
        · exact ih sent u

/-! ## The at-most-one-notification invariant -/

theorem NotifInv_refl (s : String) (sent : List (Option String)) :
    NotifInv s sent sent 0 :=
  ⟨by split <;> omega, fun h => h, fun h => absurd h (by omega)⟩

theorem NotifInv_setAdd (s : String) (y : Option String) (sent : List (Option String)) :
    NotifInv s sent (setAdd y sent) 0 :=
  ⟨by split <;> omega, fun h => subset_setAdd h, fun h => absurd h (by omega)⟩

theorem NotifInv_comp {s : String} {a b c : List (Option String)} {n₁ n₂ : Nat}
    (h1 : NotifInv s a b n₁) (h2 : NotifInv s b c n₂) :
    NotifInv s a c (n₁ + n₂) := by
  obtain ⟨b1, m1, r1⟩ := h1
  obtain ⟨b2, m2, r2⟩ := h2
  refine ⟨?_, fun h => m2 (m1 h), fun h => ?_⟩
  · by_cases ha : some s ∈ a
    · have hb := m1 ha
      rw [if_pos ha] at b1 ⊢
      rw [if_pos hb] at b2
      omega
    · rw [if_neg ha] at b1 ⊢
      by_cases hn : 1 ≤ n₁
      · have hb := r1 hn
        rw [if_pos hb] at b2
        omega
      · have : n₂ ≤ 1 := le_trans (Nat.le_add_right _ _) b2
        omega
  · by_cases hn : 1 ≤ n₂
    · exact r2 hn
    · exact m2 (r1 (by omega))

theorem countTweets_cons (s : String) (t : Tweet) (l : List Tweet) :
    countTweets s (t :: l) = countTweets s [t] + countTweets s l := by
  cases hb : (t.id == some s) <;> simp [countTweets, List.filter, hb, Nat.add_comm]

theorem NotifInv_emit (s : String) {t : Tweet} {sent : List (Option String)}
    (hns : t.id ∉ sent) :
    NotifInv s sent (setAdd t.id sent) (countTweets s [t]) := by
  by_cases hts : t.id = some s
  · refine ⟨?_, fun h => subset_setAdd h, fun _ => hts ▸ self_mem_setAdd⟩
    have hs : some s ∉ sent := hts ▸ hns
    simp [countTweets, List.filter, hts, if_neg hs]
  · have hcz : countTweets s [t] = 0 := by
      have hb : (t.id == some s) = false := beq_eq_false_iff_ne.mpr hts
      simp [countTweets, List.filter, hb]
    rw [hcz]
    exact NotifInv_setAdd s t.id sent

theorem ptl_inv (tr : Transport) (user : String) (fr : Bool) (s : String)
    (l : List Tweet) (sent : List (Option String)) :
    NotifInv s sent (processTweetList tr user fr sent l).1
      (countTweets s (processTweetList tr user fr sent l).2) := by
  induction l generalizing sent with
  | nil => simpa [processTweetList, countTweets] using NotifInv_refl s sent
  | cons t rest ih =>
    simp only [processTweetList]
    split
    · exact ih sent
    · rename_i hg
      split
      · simpa using NotifInv_comp (NotifInv_setAdd s t.id sent) (ih (setAdd t.id sent))
      · split
        · rw [countTweets_cons]
          exact NotifInv_comp (NotifInv_emit s (guard_true hg).2) (ih (setAdd t.id sent))
        · exact ih sent

theorem processUser_inv (tr : Transport) (fetchOf : String → Option FetchResult)
    (st : MonState) (user : String) (s : String) :
    NotifInv s st.sent (processUser tr fetchOf st user).1.sent
      (countTweets s (processUser tr fetchOf st user).2) := by
  cases hf : fetchOf user with
  | none => simpa [processUser, hf, countTweets] using NotifInv_refl s st.sent
  | some tweets =>
    simpa [processUser, hf] using
      ptl_inv tr user (!bootGet st.boot user) s (sortTweets tweets.items) st.sent

theorem countId_tag (s : String) (u : String) (em : List Tweet)
    (rest : List (String × Tweet)) :
    countId s (em.map (fun t => (u, t)) ++ rest) = countTweets s em + countId s rest := by
  simp only [countId, countTweets, List.filter_append, List.length_append,
    List.filter_map, List.length_map]
  rfl

theorem countId_append (s : String) (l1 l2 : List (String × Tweet)) :
    countId s (l1 ++ l2) = countId s l1 + countId s l2 := by
  simp [countId, List.filter_append]

theorem processUsers_inv (tr : Transport) (fetchOf : String → Option FetchResult)
    (s : String) (users : List String) (st : MonState) :
    NotifInv s st.sent (processUsers tr fetchOf st users).1.sent
      (countId s (processUsers tr fetchOf st users).2) := by
  induction users generalizing st with
  | nil => simpa [processUsers, countId] using NotifInv_refl s st.sent
  | cons u rest ih =>
    simp only [processUsers]
    rw [countId_tag]
    exact NotifInv_comp (processUser_inv tr fetchOf st u s) (ih _)

theorem runCycles_inv (s : String) (envs : List CycleEnv) (st : MonState) :
    NotifInv s st.sent (runCycles st envs).1.sent
      (countId s (runCycles st envs).2) := by
  induction envs generalizing st with
  | nil => simpa [runCycles, countId] using NotifInv_refl s st.sent
  | cons env rest ih =>
    simp only [runCycles]
    rw [countId_append]
    exact NotifInv_comp (processUsers_inv env.tr env.fetchOf s env.users st) (ih _)

theorem bootGet_bootSetTrue (m : BootMap) (u : String) :
    bootGet (bootSetTrue m u) u = true := by
  induction m with
  | nil => simp [bootGet, bootSetTrue]
  | cons p rest ih =>
    by_cases hp : p.1 = u
    · have hb : (p.1 == u) = true := beq_iff_eq.mpr hp
      simp [bootGet, bootSetTrue, hb, hp, List.find?_cons]
    · have hb : (p.1 == u) = false := beq_eq_false_iff_ne.mpr hp
      by_cases ha : rest.any (fun q => q.1 == u) = true
      · simp only [bootGet, bootSetTrue, List.any_cons, hb, Bool.false_or, ha,
          if_true, List.map_cons, if_neg hp] at ih ⊢
        simpa [List.find?, hb] using ih
      · have ha2 : rest.any (fun q => q.1 == u) = false := by
          cases hx : rest.any (fun q => q.1 == u)
          · rfl
          · exact absurd hx ha
        simp only [bootGet, bootSetTrue, List.any_cons, hb, Bool.false_or, ha2,
          if_false, List.cons_append] at ih ⊢
        simpa [List.find?, hb] using ih

/-- Claim C1: for every item id, across any number of check cycles, at
most one notification is ever emitted for that id; an id already in the
dedup set when the cycles begin is never notified at all (its credit of
one is already spent in the bound). -/
theorem no_duplicate_notification (envs : List CycleEnv) (st : MonState) (s : String) :
    countId s (runCycles st envs).2 + (if some s ∈ st.sent then 1 else 0) ≤ 1 :=
  (runCycles_inv s envs st).1

/-- Claim C2: an account with no prior bootstrap entry whose fetch
succeeds emits zero notifications that cycle, every fetched item id that
is truthy ends up in the dedup set, and the account leaves the cycle
with its bootstrap flag true. -/
theorem bootstrap_first_cycle (tr : Transport) (fetchOf : String → Option FetchResult)
    (st : MonState) (user : String) (res : FetchResult)
    (hfetch : fetchOf user = some res)
    (hfirst : bootGet st.boot user = false) :
    (processUser tr fetchOf st user).2 = []
    ∧ bootGet (processUser tr fetchOf st user).1.boot user = true
    ∧ ∀ t ∈ res.items, idTruthy t.id = true →
        t.id ∈ (processUser tr fetchOf st user).1.sent := by
  refine ⟨?_, ?_, ?_⟩
  · simpa [processUser, hfetch, hfirst] using
      ptl_first_run_emits_nothing tr user (sortTweets res.items) st.sent
  · simpa [processUser, hfetch, hfirst] using bootGet_bootSetTrue st.boot user
  · intro t ht htr
    have h2 : t.id ∈ (processTweetList tr user true st.sent (sortTweets res.items)).1 :=
      ptl_first_run_ids tr user (sortTweets res.items) st.sent t
        (by simpa [sortTweets] using ht) htr
    simpa [processUser, hfetch, hfirst] using h2

/-- Witness for Claim C2 at a concrete fresh account. -/
theorem bootstrap_first_cycle_witness :
    demoFetch "alice" = some ⟨"Sotwe", demoItems⟩
    ∧ bootGet (⟨[], []⟩ : MonState).boot "alice" = false
    ∧ ((processUser allOkTransport demoFetch ⟨[], []⟩ "alice").2 = []
       ∧ bootGet (processUser allOkTransport demoFetch ⟨[], []⟩ "alice").1.boot "alice" = true
       ∧ ∀ t ∈ demoItems, idTruthy t.id = true →
           t.id ∈ (processUser allOkTransport demoFetch ⟨[], []⟩ "alice").1.sent) :=
  ⟨rfl, rfl,
   bootstrap_first_cycle allOkTransport demoFetch ⟨[], []⟩ "alice" ⟨"Sotwe", demoItems⟩
     rfl rfl⟩

theorem pRetryRun_all_none (run : Nat → Option FetchResult) (h : ∀ i, run i = none) :
    ∀ fuel i : Nat, pRetryRun run fuel i = (none, i + fuel + 1) := by
  intro fuel
  induction fuel with
  | zero => intro i; simp [pRetryRun, h i]
  | succ f ih =>
    intro i
    simp only [pRetryRun, h i]
    rw [ih (i + 1)]
    simp
    omega

/-- Claim C3: when every source fails on every attempt, `fetchTweets`
terminates with the absent result after exactly `MAX_RETRIES + 1` total
attempts (each attempt trying every source in order); the failure is a
value, not an escaping exception. -/
theorem retry_termination (sotwe nitter : Nat → Option FetchResult) (maxRetries : Nat)
    (h : ∀ i, sotwe i = none ∧ nitter i = none) :
    fetchTweets sotwe nitter maxRetries = (none, maxRetries + 1) := by
  have hrun : ∀ i, (sotwe i).orElse (fun _ => nitter i) = none := by
    intro i
    rw [(h i).1, (h i).2]
    rfl
  unfold fetchTweets
  rw [pRetryRun_all_none _ hrun maxRetries 0]
  simp

/-- Witness for Claim C3 with the default retry count 3. -/
theorem retry_termination_witness :
    (∀ i : Nat, (fun _ : Nat => (none : Option FetchResult)) i = none
       ∧ (fun _ : Nat => (none : Option FetchResult)) i = none)
    ∧ fetchTweets (fun _ => none) (fun _ => none) 3 = (none, 3 + 1) :=
  ⟨fun _ => ⟨rfl, rfl⟩, retry_termination (fun _ => none) (fun _ => none) 3 (fun _ => ⟨rfl, rfl⟩)⟩

theorem emitted_pairwise (tr : Transport) (fetchOf : String → Option FetchResult)
    (st : MonState) (user : String) :
    ((processUser tr fetchOf st user).2).Pairwise tweetLE := by
  cases hf : fetchOf user with
  | none => simp [processUser, hf]
  | some tweets =>
    have hsub : List.Sublist
        (processTweetList tr user (!bootGet st.boot user) st.sent (sortTweets tweets.items)).2
        (sortTweets tweets.items) :=
      ptl_emitted_sublist tr user (!bootGet st.boot user) (sortTweets tweets.items) st.sent
    have hsort : (sortTweets tweets.items).Pairwise tweetLE :=
      List.sorted_insertionSort tweetLE tweets.items
    simpa [processUser, hf] using hsort.sublist hsub

/-- Claim C4: within one account in one cycle, notifications come out in
ascending `createdAt` order: a strictly earlier item appears at a
strictly earlier position of the emission list. -/
theorem chronological_emission (tr : Transport) (fetchOf : String → Option FetchResult)
    (st : MonState) (user : String)
    (i j : Fin (processUser tr fetchOf st user).2.length)
    (hlt : ((processUser tr fetchOf st user).2.get i).createdAt <
        ((processUser tr fetchOf st user).2.get j).createdAt) :
    (i : Nat) < (j : Nat) := by
  have hpw := emitted_pairwise tr fetchOf st user
  rcases Nat.lt_trichotomy (i : Nat) (j : Nat) with h | h | h
  · exact h
  · exact absurd (Fin.ext h ▸ hlt) (lt_irrefl _)
  · have hle : tweetLE ((processUser tr fetchOf st user).2.get j)
        ((processUser tr fetchOf st user).2.get i) :=
      (List.pairwise_iff_get.mp hpw) j i h
    exact absurd (lt_of_lt_of_le hlt hle) (lt_irrefl _)

/-- Witness for Claim C4: with three new items the first two notified
positions are chronological. -/
theorem chronological_emission_witness :
    ((processUser allOkTransport demoFetch ⟨[], [("alice", true)]⟩ "alice").2.get
        ⟨0, by decide⟩).createdAt <
      ((processUser allOkTransport demoFetch ⟨[], [("alice", true)]⟩ "alice").2.get
        ⟨1, by decide⟩).createdAt
    ∧ (0 : Nat) < 1 :=
  ⟨by decide,
   chronological_emission allOkTransport demoFetch ⟨[], [("alice", true)]⟩ "alice"
     ⟨0, by decide⟩ ⟨1, by decide⟩ (by decide)⟩

/-- Claim C7: in the steady (bootstrapped) state, an item id whose every
send attempt fails on both the rich-media path and the plain-text
fallback is neither notified nor recorded in the dedup set during the
cycle, so it stays eligible for the next cycle; and the dedup set grows
exactly by the ids of the successfully sent notifications. -/
theorem failed_send_not_recorded (tr : Transport) (fetchOf : String → Option FetchResult)
    (st : MonState) (user : String) (res : FetchResult) (tid : Option String)
    (hfetch : fetchOf user = some res)
    (hactive : bootGet st.boot user = true)
    (hfail : ∀ t ∈ res.items, t.id = tid →
        tr.sendPhotoOk user t = false ∧ tr.sendMessageOk user t = false)
    (hnot : tid ∉ st.sent) :
    tid ∉ (processUser tr fetchOf st user).1.sent
    ∧ (∀ t ∈ (processUser tr fetchOf st user).2, t.id ≠ tid)
    ∧ (∀ x, x ∈ (processUser tr fetchOf st user).1.sent ↔
        x ∈ st.sent ∨ ∃ t ∈ (processUser tr fetchOf st user).2, t.id = x) := by
  have hemsub : ∀ t ∈ (processUser tr fetchOf st user).2, t ∈ res.items := by
    intro t ht
    have h1 : t ∈ (processTweetList tr user false st.sent (sortTweets res.items)).2 := by
      simpa [processUser, hfetch, hactive] using ht
    have h2 := (ptl_emitted_sublist tr user false (sortTweets res.items) st.sent).subset h1
    simpa [sortTweets] using h2
  have hsucc : ∀ t ∈ (processUser tr fetchOf st user).2, sendTweet tr user t = true := by
    intro t ht
    have h1 : t ∈ (processTweetList tr user false st.sent (sortTweets res.items)).2 := by
      simpa [processUser, hfetch, hactive] using ht
    exact (ptl_emitted_success tr user (sortTweets res.items) st.sent t h1).1
  have hnotid : ∀ t ∈ (processUser tr fetchOf st user).2, t.id ≠ tid := by
    intro t ht heq
    obtain ⟨hp, hm⟩ := hfail t (hemsub t ht) heq
    have hfalse : sendTweet tr user t = false := by
      unfold sendTweet
      split
      · rw [hp, hm]
        rfl
      · exact hm
    rw [hsucc t ht] at hfalse
    exact Bool.noConfusion hfalse
  have hiff : ∀ x, x ∈ (processUser tr fetchOf st user).1.sent ↔
      x ∈ st.sent ∨ ∃ t ∈ (processUser tr fetchOf st user).2, t.id = x := by
    intro x
    simpa [processUser, hfetch, hactive] using
      ptl_active_sent_iff tr user (sortTweets res.items) st.sent x
  refine ⟨?_, hnotid, hiff⟩
  intro hmem
  rcases (hiff tid).mp hmem with h | ⟨t, ht, heq⟩
  · exact hnot h
  · exact hnotid t ht heq

/-- Witness for Claim C7: every send fails, so nothing is recorded. -/
theorem failed_send_not_recorded_witness :
    (some "1" : Option String) ∉
      (processUser allFailTransport demoFetch ⟨[], [("alice", true)]⟩ "alice").1.sent
    ∧ (∀ t ∈ (processUser allFailTransport demoFetch ⟨[], [("alice", true)]⟩ "alice").2,
        t.id ≠ some "1")
    ∧ (∀ x, x ∈ (processUser allFailTransport demoFetch ⟨[], [("alice", true)]⟩ "alice").1.sent ↔
        x ∈ (⟨[], [("alice", true)]⟩ : MonState).sent ∨
          ∃ t ∈ (processUser allFailTransport demoFetch ⟨[], [("alice", true)]⟩ "alice").2,
            t.id = x) :=
  failed_send_not_recorded allFailTransport demoFetch ⟨[], [("alice", true)]⟩ "alice"
    ⟨"Sotwe", demoItems⟩ (some "1") rfl (by decide) (by decide) (by decide)

/-- Claim C8 counterexample: the add-account pass runs
`tweets.items.forEach(t => sentTweetIds.add(t.id))` with no id check, so
an item with no recoverable id (a null id) does enter the dedup set
through that path. -/
theorem no_id_enters_dedup_via_add :
    (addUser ⟨[], [], []⟩ "bob" (some ⟨"Nitter", [⟨none, "hi", 5, []⟩]⟩)).sent = [none] := by
  decide

/-- Claim C8 (amended): in the scheduled check cycle an item with no
recoverable (truthy) id is always skipped: only truthy ids are ever
added to the dedup set there, and every emitted notification carries a
truthy id. -/
theorem no_id_skipped_in_check_cycle (tr : Transport) (fetchOf : String → Option FetchResult)
    (st : MonState) (user : String) (x : Option String)
    (hx : idTruthy x = false) :
    (x ∈ (processUser tr fetchOf st user).1.sent → x ∈ st.sent)
    ∧ ∀ t ∈ (processUser tr fetchOf st user).2, idTruthy t.id = true := by
  constructor
  · intro hmem
    cases hf : fetchOf user with
    | none => simpa [processUser, hf] using hmem
    | some tweets =>
      have h1 : x ∈ (processTweetList tr user (!bootGet st.boot user) st.sent
          (sortTweets tweets.items)).1 := by
        simpa [processUser, hf] using hmem
      rcases ptl_added_truthy tr user (!bootGet st.boot user)
          (sortTweets tweets.items) st.sent x h1 with h | h
      · exact h
      · rw [hx] at h
        exact Bool.noConfusion h
  · intro t ht
    cases hf : fetchOf user with
    | none => simp [processUser, hf] at ht
    | some tweets =>
      have h1 : t ∈ (processTweetList tr user (!bootGet st.boot user) st.sent
          (sortTweets tweets.items)).2 := by
        simpa [processUser, hf] using ht
      cases hb : bootGet st.boot user with
      | false =>
        rw [hb] at h1
        simp only [Bool.not_false] at h1
        rw [ptl_first_run_emits_nothing tr user (sortTweets tweets.items) st.sent] at h1
        exact absurd h1 (List.not_mem_nil t)
      | true =>
        rw [hb] at h1
        simp only [Bool.not_true] at h1
        exact (ptl_emitted_success tr user (sortTweets tweets.items) st.sent t h1).2

/-- Witness for the amended Claim C8 at the null id. -/
theorem no_id_skipped_in_check_cycle_witness :
    ((none : Option String) ∈ (processUser allOkTransport demoFetch ⟨[], []⟩ "alice").1.sent →
       (none : Option String) ∈ (⟨[], []⟩ : MonState).sent)
    ∧ ∀ t ∈ (processUser allOkTransport demoFetch ⟨[], []⟩ "alice").2, idTruthy t.id = true :=
  no_id_skipped_in_check_cycle allOkTransport demoFetch ⟨[], []⟩ "alice" none rfl

/-- Claim C9 (code-bug exhibit): a cycle that emits no notification and
changes no state still performs the end-of-cycle save, because the code
tests `Object.keys(userBootstrapState).length > 0` (map non-empty)
instead of whether anything changed, against its own comment
`Save if changes`. -/
theorem save_despite_no_changes :
    (checkFeeds ⟨allOkTransport, demoFetch, ["alice"]⟩
        ⟨[some "1", some "2", some "3"], [("alice", true)]⟩).saved = true
    ∧ (checkFeeds ⟨allOkTransport, demoFetch, ["alice"]⟩
        ⟨[some "1", some "2", some "3"], [("alice", true)]⟩).newCount = 0
    ∧ (checkFeeds ⟨allOkTransport, demoFetch, ["alice"]⟩
        ⟨[some "1", some "2", some "3"], [("alice", true)]⟩).state =
      ⟨[some "1", some "2", some "3"], [("alice", true)]⟩ := by
  decide

theorem find?_bootDelete_self (m : BootMap) (u : String) :
    (bootDelete m u).find? (fun p => p.1 == u) = none := by
  apply List.find?_eq_none.mpr
  intro p hp
  have h2 := (List.mem_filter.mp hp).2
  simp only [bne_iff_ne, ne_eq] at h2
  simp [h2]

theorem find?_bootDelete_other (m : BootMap) (u v : String) (hv : v ≠ u) :
    (bootDelete m u).find? (fun p => p.1 == v) = m.find? (fun p => p.1 == v) := by
  induction m with
  | nil => rfl
  | cons p rest ih =>
    by_cases hp : p.1 = u
    · have h1 : (p.1 != u) = false := by simp [bne, hp]
      have h2 : (p.1 == v) = false :=
        beq_eq_false_iff_ne.mpr (by rw [hp]; exact fun h => hv h.symm)
      simpa [bootDelete, List.filter_cons, h1, List.find?_cons, h2] using ih
    · have h1 : (p.1 != u) = true := by simp [bne, hp]
      by_cases hpv : p.1 = v
      · have h2 : (p.1 == v) = true := beq_iff_eq.mpr hpv
        simp [bootDelete, List.filter_cons, h1, List.find?_cons, h2]
      · have h2 : (p.1 == v) = false := beq_eq_false_iff_ne.mpr hpv
        simpa [bootDelete, List.filter_cons, h1, List.find?_cons, h2] using ih

/-- Claim C10: removing a tracked account deletes exactly that account
from the tracked list and from the bootstrap map and writes exactly the
users and state files, leaving the dedup set and every other account's
entries untouched; removing an untracked account changes nothing and
writes nothing. -/
theorem remove_account_frame (st : BotState) (user : String) :
    (user ∈ st.users →
       (removeUser st user).1.sent = st.sent
       ∧ (removeUser st user).2 = ["monitored_users.json", "user_state.json"]
       ∧ bootGet (removeUser st user).1.boot user = false
       ∧ (removeUser st user).1.boot.find? (fun p => p.1 == user) = none
       ∧ (∀ v, v ≠ user →
           (removeUser st user).1.boot.find? (fun p => p.1 == v) =
             st.boot.find? (fun p => p.1 == v))
       ∧ (∀ v, v ≠ user → ((v ∈ (removeUser st user).1.users) ↔ v ∈ st.users))
       ∧ (st.users.Nodup → user ∉ (removeUser st user).1.users))
    ∧ (user ∉ st.users → removeUser st user = (st, [])) := by
  constructor
  · intro hmem
    refine ⟨by simp [removeUser, hmem], by simp [removeUser, hmem], ?_, ?_, ?_, ?_, ?_⟩
    · simp only [removeUser, if_pos hmem]
      simp [bootGet, find?_bootDelete_self]
    · simp only [removeUser, if_pos hmem]
      exact find?_bootDelete_self st.boot user
    · intro v hv
      simp only [removeUser, if_pos hmem]
      exact find?_bootDelete_other st.boot user v hv
    · intro v hv
      simp only [removeUser, if_pos hmem]
      exact List.mem_erase_of_ne hv
    · intro hnd
      simp only [removeUser, if_pos hmem]
      exact hnd.not_mem_erase
  · intro hmem
    simp [removeUser, hmem]

/-- Witness for Claim C10: removal of a tracked and of an untracked
account. -/
theorem remove_account_frame_witness :
    "bob" ∈ ["alice", "bob"]
    ∧ (removeUser ⟨["alice", "bob"], [some "1"], [("alice", true), ("bob", true)]⟩
        "bob").1.sent = [some "1"]
    ∧ "carol" ∉ ["alice", "bob"]
    ∧ removeUser ⟨["alice", "bob"], [some "1"], [("alice", true), ("bob", true)]⟩ "carol" =
        (⟨["alice", "bob"], [some "1"], [("alice", true), ("bob", true)]⟩, []) :=
  ⟨by decide,
   ((remove_account_frame ⟨["alice", "bob"], [some "1"],
       [("alice", true), ("bob", true)]⟩ "bob").1 (by decide)).1,
   by decide,
   (remove_account_frame ⟨["alice", "bob"], [some "1"],
       [("alice", true), ("bob", true)]⟩ "carol").2 (by decide)⟩

/-! ## Lemmas about the response cache -/

theorem mem_mapSet [DecidableEq κ] {l : List (κ × CacheEntry α)}
    {k : κ} {e : CacheEntry α} :
    ∀ p ∈ mapSet l k e, p = (k, e) ∨ (p ∈ l ∧ p.1 ≠ k) := by
  intro p hp
  unfold mapSet at hp
  split at hp
  · rcases List.mem_map.mp hp with ⟨q, hq, hfq⟩
    by_cases hqk : q.1 = k
    · left
      rw [← hfq, if_pos hqk]
    · right
      rw [← hfq, if_neg hqk]
      exact ⟨hq, hqk⟩
  · rename_i hany
    rcases List.mem_append.mp hp with h | h
    · right
      refine ⟨h, fun heq => ?_⟩
      exact hany (List.any_eq_true.mpr ⟨p, h, decide_eq_true heq⟩)
    · left
      simpa using h

theorem self_mem_mapSet [DecidableEq κ] {l : List (κ × CacheEntry α)}
    {k : κ} {e : CacheEntry α} : (k, e) ∈ mapSet l k e := by
  unfold mapSet
  split
  · rename_i hany
    rcases List.any_eq_true.mp hany with ⟨q, hq, hqk⟩
    exact List.mem_map.mpr ⟨q, hq, by rw [if_pos (of_decide_eq_true hqk)]⟩
  · exact List.mem_append.mpr (Or.inr (by simp))

theorem length_mapSet_le [DecidableEq κ] (l : List (κ × CacheEntry α))
    (k : κ) (e : CacheEntry α) : (mapSet l k e).length ≤ l.length + 1 := by
  unfold mapSet
  split
  · simp
  · simp

theorem nodupKeys_mapSet [DecidableEq κ] {l : List (κ × CacheEntry α)}
    (h : NodupKeys l) (k : κ) (e : CacheEntry α) : NodupKeys (mapSet l k e) := by
  unfold mapSet
  split
  · have hkeys : (l.map (fun p => if p.1 = k then (k, e) else p)).map Prod.fst =
        l.map Prod.fst := by
      rw [List.map_map]
      apply List.map_congr_left
      intro q _
      by_cases hqk : q.1 = k
      · simp [hqk]
      · simp [hqk]
    unfold NodupKeys
    rw [hkeys]
    exact h
  · rename_i hany
    unfold NodupKeys
    rw [List.map_append]
    rw [List.nodup_append]
    refine ⟨h, by simp, ?_⟩
    intro x hx hx2
    rcases List.mem_map.mp hx with ⟨q, hq, rfl⟩
    have hxk : q.1 = k := by simpa using hx2
    exact hany (List.any_eq_true.mpr ⟨q, hq, decide_eq_true hxk⟩)

theorem find?_mapSet_self [DecidableEq κ] (l : List (κ × CacheEntry α))
    (k : κ) (e : CacheEntry α) :
    (mapSet l k e).find? (fun p => decide (p.1 = k)) = some (k, e) := by
  induction l with
  | nil => simp [mapSet, List.find?]
  | cons q rest ih =>
    by_cases hq : q.1 = k
    · have hany : ((q :: rest).any (fun p => decide (p.1 = k))) = true :=
        List.any_eq_true.mpr ⟨q, List.mem_cons_self q rest, decide_eq_true hq⟩
      unfold mapSet
      rw [if_pos hany]
      simp [List.find?_cons, hq]
    · cases hra : rest.any (fun p => decide (p.1 = k)) with
      | true =>
        have hany : ((q :: rest).any (fun p => decide (p.1 = k))) = true := by
          simp [List.any_cons, hra]
        unfold mapSet
        rw [if_pos hany]
        simp only [List.map_cons, if_neg hq]
        rw [List.find?_cons_of_neg _ (by simpa using hq)]
        have h2 := ih
        unfold mapSet at h2
        rw [if_pos hra] at h2
        exact h2
      | false =>
        have hany : ((q :: rest).any (fun p => decide (p.1 = k))) = false := by
          simp [List.any_cons, hra, hq]
        unfold mapSet
        rw [if_neg (by simp [hany])]
        simp only [List.cons_append]
        rw [List.find?_cons_of_neg _ (by simpa using hq)]
        have h2 := ih
        unfold mapSet at h2
        rw [if_neg (by simp [hra])] at h2
        exact h2

theorem find?_key_unique [DecidableEq κ] {L : List (κ × CacheEntry α)} {k : κ}
    {r0 : κ × CacheEntry α} (hmem : r0 ∈ L) (hkey : r0.1 = k)
    (huniq : ∀ r ∈ L, r.1 = k → r = r0) :
    L.find? (fun p => decide (p.1 = k)) = some r0 := by
  induction L with
  | nil => exact absurd hmem (List.not_mem_nil r0)
  | cons h rest ih =>
    by_cases hh : h.1 = k
    · have he : h = r0 := huniq h (List.mem_cons_self h rest) hh
      subst he
      simp [List.find?_cons, hh]
    · rw [List.find?_cons_of_neg _ (by simpa using hh)]
      have hm2 : r0 ∈ rest := by
        rcases List.mem_cons.mp hmem with rfl | hm
        · exact absurd hkey hh
        · exact hm
      exact ih hm2 (fun r hr => huniq r (List.mem_cons_of_mem h hr))

theorem sorted_take_drop_le {L : List (κ × CacheEntry α)} (n : Nat)
    (hs : L.Pairwise entryLE) :
    ∀ p ∈ L.take n, ∀ q ∈ L.drop n, p.2.timestamp ≤ q.2.timestamp := by
  have hs2 : (L.take n ++ L.drop n).Pairwise entryLE := by
    rw [List.take_append_drop]
    exact hs
  exact fun p hp q hq => (List.pairwise_append.mp hs2).2.2 p hp q hq

theorem countP_not_add (pr : β → Bool) (l : List β) :
    (l.filter (fun b => !(pr b))).length + (l.filter pr).length = l.length := by
  induction l with
  | nil => rfl
  | cons b rest ih =>
    cases hb : pr b <;> simp [List.filter_cons, hb] <;> omega

theorem set_cache_eq_of_big [DecidableEq κ] (c : SmartCache κ α) (now : Nat) (k : κ) (v : α)
    (hlen : 1000 < (mapSet c.cache k ⟨v, now⟩).length) :
    (c.set now k v).cache = (mapSet c.cache k ⟨v, now⟩).filter (fun p =>
      decide (p.1 ∉ (((mapSet c.cache k ⟨v, now⟩).insertionSort entryLE).take 200).map
        Prod.fst)) := by
  unfold SmartCache.set
  rw [if_pos hlen]

theorem set_cache_eq_of_small [DecidableEq κ] (c : SmartCache κ α) (now : Nat) (k : κ) (v : α)
    (hlen : ¬ 1000 < (mapSet c.cache k ⟨v, now⟩).length) :
    (c.set now k v).cache = mapSet c.cache k ⟨v, now⟩ := by
  unfold SmartCache.set
  rw [if_neg hlen]

theorem set_ttl [DecidableEq κ] (c : SmartCache κ α) (now : Nat) (k : κ) (v : α) :
    (c.set now k v).ttl = c.ttl := by
  unfold SmartCache.set
  split <;> rfl

theorem set_hits [DecidableEq κ] (c : SmartCache κ α) (now : Nat) (k : κ) (v : α) :
    (c.set now k v).hits = c.hits := by
  unfold SmartCache.set
  split <;> rfl

theorem set_misses [DecidableEq κ] (c : SmartCache κ α) (now : Nat) (k : κ) (v : α) :
    (c.set now k v).misses = c.misses := by
  unfold SmartCache.set
  split <;> rfl

theorem evict_filter_oldest [DecidableEq κ] (C : List (κ × CacheEntry α))
    (hnd : NodupKeys C) :
    ∀ p ∈ C, p ∉ C.filter (fun r =>
        decide (r.1 ∉ ((C.insertionSort entryLE).take 200).map Prod.fst)) →
      ∀ q ∈ C.filter (fun r =>
        decide (r.1 ∉ ((C.insertionSort entryLE).take 200).map Prod.fst)),
        p.2.timestamp ≤ q.2.timestamp := by
  intro p hp hpe q hq
  set S := C.insertionSort entryLE with hS
  have hperm : List.Perm S C := List.perm_insertionSort entryLE C
  have hsort : S.Pairwise entryLE := List.sorted_insertionSort entryLE C
  have hndS : NodupKeys S := by
    unfold NodupKeys at hnd ⊢
    exact ((hperm.map Prod.fst).nodup_iff).mpr hnd
  rw [List.mem_filter] at hq
  obtain ⟨hqC, hq2⟩ := hq
  have hq3 : q.1 ∉ (S.take 200).map Prod.fst := of_decide_eq_true hq2
  have hp2 : p.1 ∈ (S.take 200).map Prod.fst := by
    by_contra hcon
    exact hpe (List.mem_filter.mpr ⟨hp, decide_eq_true hcon⟩)
  have hqS : q ∈ S := hperm.mem_iff.mpr hqC
  have hqdrop : q ∈ S.drop 200 := by
    have hq4 : q ∈ S.take 200 ++ S.drop 200 := by
      rw [List.take_append_drop]
      exact hqS
    rcases List.mem_append.mp hq4 with h | h
    · exact absurd (List.mem_map_of_mem Prod.fst h) hq3
    · exact h
  have hpS : p ∈ S := hperm.mem_iff.mpr hp
  have hptake : p ∈ S.take 200 := by
    have hp4 : p ∈ S.take 200 ++ S.drop 200 := by
      rw [List.take_append_drop]
      exact hpS
    rcases List.mem_append.mp hp4 with h | h
    · exact h
    · exfalso
      rcases List.mem_map.mp hp2 with ⟨a, ha, hak⟩
      have hkeys : S.map Prod.fst = (S.take 200).map Prod.fst ++ (S.drop 200).map Prod.fst := by
        rw [← List.map_append, List.take_append_drop]
      unfold NodupKeys at hndS
      rw [hkeys, List.nodup_append] at hndS
      exact hndS.2.2 (hak ▸ List.mem_map_of_mem Prod.fst ha) (List.mem_map_of_mem Prod.fst h)
  exact sorted_take_drop_le 200 hsort p hptake q hqdrop

theorem evict_filter_length [DecidableEq κ] (C : List (κ × CacheEntry α))
    (hnd : NodupKeys C) (hlen : 1000 < C.length) :
    (C.filter (fun r =>
        decide (r.1 ∉ ((C.insertionSort entryLE).take 200).map Prod.fst))).length =
      C.length - 200 := by
  set S := C.insertionSort entryLE with hS
  have hperm : List.Perm S C := List.perm_insertionSort entryLE C
  have hndS : NodupKeys S := by
    unfold NodupKeys at hnd ⊢
    exact ((hperm.map Prod.fst).nodup_iff).mpr hnd
  have hSlen : S.length = C.length := hperm.length_eq
  have htklen : (S.take 200).length = 200 := by
    rw [List.length_take]
    omega
  have hpred : (fun r : κ × CacheEntry α =>
      decide (r.1 ∉ (S.take 200).map Prod.fst)) = (fun r =>
      !(decide (r.1 ∈ (S.take 200).map Prod.fst))) := by
    funext r
    exact decide_not
  have hcount : (C.filter (fun r =>
      decide (r.1 ∈ (S.take 200).map Prod.fst))).length = 200 := by
    rw [← List.countP_eq_length_filter]
    rw [← hperm.countP_eq]
    have hsplit : S.countP (fun r => decide (r.1 ∈ (S.take 200).map Prod.fst)) =
        (S.take 200).countP (fun r => decide (r.1 ∈ (S.take 200).map Prod.fst)) +
        (S.drop 200).countP (fun r => decide (r.1 ∈ (S.take 200).map Prod.fst)) := by
      rw [← List.countP_append, List.take_append_drop]
    rw [hsplit]
    have htk : (S.take 200).countP (fun r => decide (r.1 ∈ (S.take 200).map Prod.fst)) =
        (S.take 200).length :=
      List.countP_eq_length.mpr (fun r hr =>
        decide_eq_true (List.mem_map_of_mem Prod.fst hr))
    have hdp : (S.drop 200).countP (fun r => decide (r.1 ∈ (S.take 200).map Prod.fst)) = 0 := by
      apply List.countP_eq_zero.mpr
      intro r hr hcon
      have hrk : r.1 ∈ (S.take 200).map Prod.fst := of_decide_eq_true hcon
      have hkeys : S.map Prod.fst =
          (S.take 200).map Prod.fst ++ (S.drop 200).map Prod.fst := by
        rw [← List.map_append, List.take_append_drop]
      unfold NodupKeys at hndS
      rw [hkeys, List.nodup_append] at hndS
      exact hndS.2.2 hrk (List.mem_map_of_mem Prod.fst hr)
    rw [htk, hdp, htklen]
  have hsum := countP_not_add
    (fun r : κ × CacheEntry α => decide (r.1 ∈ (S.take 200).map Prod.fst)) C
  rw [hpred]
  omega

theorem set_cache_length_le [DecidableEq κ] (c : SmartCache κ α) (now : Nat) (k : κ) (v : α)
    (hle : c.cache.length ≤ 1000) : (c.set now k v).cache.length ≤ 1000 := by
  by_cases hlen : 1000 < (mapSet c.cache k ⟨v, now⟩).length
  · rw [set_cache_eq_of_big c now k v hlen]
    have hc1 : (mapSet c.cache k ⟨v, now⟩).length ≤ 1001 :=
      le_trans (length_mapSet_le c.cache k ⟨v, now⟩) (by omega)
    set S := (mapSet c.cache k ⟨v, now⟩).insertionSort entryLE with hS
    have hperm : List.Perm S (mapSet c.cache k ⟨v, now⟩) :=
      List.perm_insertionSort entryLE (mapSet c.cache k ⟨v, now⟩)
    have hSlen : S.length = (mapSet c.cache k ⟨v, now⟩).length := hperm.length_eq
    have htklen : (S.take 200).length = 200 := by
      rw [List.length_take]
      omega
    have hcge : 200 ≤ (mapSet c.cache k ⟨v, now⟩).countP (fun r =>
        decide (r.1 ∈ (S.take 200).map Prod.fst)) := by
      rw [← hperm.countP_eq]
      have hsplit : S.countP (fun r => decide (r.1 ∈ (S.take 200).map Prod.fst)) =
          (S.take 200).countP (fun r => decide (r.1 ∈ (S.take 200).map Prod.fst)) +
          (S.drop 200).countP (fun r => decide (r.1 ∈ (S.take 200).map Prod.fst)) := by
        rw [← List.countP_append, List.take_append_drop]
      have htk : (S.take 200).countP (fun r => decide (r.1 ∈ (S.take 200).map Prod.fst)) =
          (S.take 200).length :=
        List.countP_eq_length.mpr (fun r hr =>
          decide_eq_true (List.mem_map_of_mem Prod.fst hr))
      rw [hsplit, htk, htklen]
      omega
    have hpred : (fun r : κ × CacheEntry α =>
        decide (r.1 ∉ (S.take 200).map Prod.fst)) = (fun r =>
        !(decide (r.1 ∈ (S.take 200).map Prod.fst))) := by
      funext r
      exact decide_not
    have hsum := countP_not_add
      (fun r : κ × CacheEntry α => decide (r.1 ∈ (S.take 200).map Prod.fst))
      (mapSet c.cache k ⟨v, now⟩)
    have hcp : ((mapSet c.cache k ⟨v, now⟩).filter (fun r =>
        decide (r.1 ∈ (S.take 200).map Prod.fst))).length =
        (mapSet c.cache k ⟨v, now⟩).countP (fun r =>
        decide (r.1 ∈ (S.take 200).map Prod.fst)) :=
      (List.countP_eq_length_filter _ _).symm
    rw [hpred]
    omega
  · rw [set_cache_eq_of_small c now k v hlen]
    omega

theorem set_evicts_oldest [DecidableEq κ] (c : SmartCache κ α) (now : Nat) (k : κ) (v : α)
    (hnd : NodupKeys c.cache) :
    ∀ p ∈ mapSet c.cache k ⟨v, now⟩, p ∉ (c.set now k v).cache →
      ∀ q ∈ (c.set now k v).cache, p.2.timestamp ≤ q.2.timestamp := by
  intro p hp hpe q hq
  by_cases hlen : 1000 < (mapSet c.cache k ⟨v, now⟩).length
  · rw [set_cache_eq_of_big c now k v hlen] at hpe hq
    exact evict_filter_oldest _ (nodupKeys_mapSet hnd k ⟨v, now⟩) p hp hpe q hq
  · rw [set_cache_eq_of_small c now k v hlen] at hpe
    exact absurd hp hpe

theorem runSets_length_le [DecidableEq κ] (ttl : Nat) (ops : List (SetOp κ α)) :
    (runSets ttl ops).cache.length ≤ 1000 := by
  have hgen : ∀ (ops : List (SetOp κ α)) (c : SmartCache κ α), c.cache.length ≤ 1000 →
      (ops.foldl (fun c op => c.set op.now op.key op.val) c).cache.length ≤ 1000 := by
    intro ops
    induction ops with
    | nil => exact fun _ h => h
    | cons op rest ih =>
      intro c h
      exact ih _ (set_cache_length_le c op.now op.key op.val h)
  exact hgen ops (SmartCache.new ttl) (by simp [SmartCache.new])

/-- Claim C6: after any sequence of `set` calls on a fresh cache the
entry count never exceeds 1000 at the end of a `set`; and when an
insertion pushes the store past capacity, eviction removes exactly 200
entries (20 percent of the capacity bound) and every evicted entry is at
least as old (by stored timestamp) as every kept one. -/
theorem cache_capacity_bound {κ α : Type} [DecidableEq κ] :
    (∀ (ttl : Nat) (ops : List (SetOp κ α)), (runSets ttl ops).cache.length ≤ 1000)
    ∧ ∀ (c : SmartCache κ α) (now : Nat) (k : κ) (v : α), NodupKeys c.cache →
        (∀ p ∈ mapSet c.cache k ⟨v, now⟩, p ∉ (c.set now k v).cache →
          ∀ q ∈ (c.set now k v).cache, p.2.timestamp ≤ q.2.timestamp)
        ∧ (1000 < (mapSet c.cache k ⟨v, now⟩).length →
            (c.set now k v).cache.length = (mapSet c.cache k ⟨v, now⟩).length - 200) := by
  refine ⟨runSets_length_le,
    fun c now k v hnd => ⟨set_evicts_oldest c now k v hnd, fun hlen => ?_⟩⟩
  rw [set_cache_eq_of_big c now k v hlen]
  exact evict_filter_length _ (nodupKeys_mapSet hnd k ⟨v, now⟩) hlen

/-- Witness for Claim C6: the 1001-entry demo cache triggers eviction on
the next insertion; the oldest entry is evicted, a newer one kept, and
exactly 200 entries go. -/
theorem cache_capacity_bound_witness :
    (runSets (κ := Nat) (α := Nat) 30000 []).cache.length ≤ 1000
    ∧ NodupKeys evictDemoCache.cache
    ∧ (0, (⟨0, 0⟩ : CacheEntry Nat)) ∈ mapSet evictDemoCache.cache 5000 ⟨0, 2000⟩
    ∧ (0, (⟨0, 0⟩ : CacheEntry Nat)) ∉ (evictDemoCache.set 2000 5000 0).cache
    ∧ (500, (⟨0, 500⟩ : CacheEntry Nat)) ∈ (evictDemoCache.set 2000 5000 0).cache
    ∧ ((0, (⟨0, 0⟩ : CacheEntry Nat)) : Nat × CacheEntry Nat).2.timestamp ≤
        ((500, (⟨0, 500⟩ : CacheEntry Nat)) : Nat × CacheEntry Nat).2.timestamp
    ∧ 1000 < (mapSet evictDemoCache.cache 5000 ⟨0, 2000⟩).length
    ∧ (evictDemoCache.set 2000 5000 0).cache.length =
        (mapSet evictDemoCache.cache 5000 ⟨0, 2000⟩).length - 200 := by
  have hnd : NodupKeys evictDemoCache.cache := by
    unfold NodupKeys evictDemoCache
    rw [List.map_map]
    simpa using List.nodup_range 1001
  have hp : (0, (⟨0, 0⟩ : CacheEntry Nat)) ∈ mapSet evictDemoCache.cache 5000 ⟨0, 2000⟩ := by
    decide
  have hpn : (0, (⟨0, 0⟩ : CacheEntry Nat)) ∉ (evictDemoCache.set 2000 5000 0).cache := by
    decide
  have hq : (500, (⟨0, 500⟩ : CacheEntry Nat)) ∈ (evictDemoCache.set 2000 5000 0).cache := by
    decide
  have hlen : 1000 < (mapSet evictDemoCache.cache 5000 ⟨0, 2000⟩).length := by decide
  refine ⟨cache_capacity_bound.1 30000 [], hnd, hp, hpn, hq, ?_, hlen, ?_⟩
  · exact (cache_capacity_bound.2 evictDemoCache 2000 5000 0 hnd).1
      (0, ⟨0, 0⟩) hp hpn (500, ⟨0, 500⟩) hq
  · exact (cache_capacity_bound.2 evictDemoCache 2000 5000 0 hnd).2 hlen

theorem find?_set_self [DecidableEq κ] (c : SmartCache κ α) (now : Nat) (k : κ) (v : α)
    (hnd : NodupKeys c.cache)
    (hts : ∀ p ∈ c.cache, p.2.timestamp < now) :
    (c.set now k v).cache.find? (fun p => decide (p.1 = k)) = some (k, ⟨v, now⟩) := by
  by_cases hlen : 1000 < (mapSet c.cache k ⟨v, now⟩).length
  · rw [set_cache_eq_of_big c now k v hlen]
    set S := (mapSet c.cache k ⟨v, now⟩).insertionSort entryLE with hS
    have hperm : List.Perm S (mapSet c.cache k ⟨v, now⟩) :=
      List.perm_insertionSort entryLE (mapSet c.cache k ⟨v, now⟩)
    have hsort : S.Pairwise entryLE :=
      List.sorted_insertionSort entryLE (mapSet c.cache k ⟨v, now⟩)
    have hndC := nodupKeys_mapSet hnd k (⟨v, now⟩ : CacheEntry α)
    have hndS : NodupKeys S := by
      unfold NodupKeys at hndC ⊢
      exact ((hperm.map Prod.fst).nodup_iff).mpr hndC
    have hSlen : S.length = (mapSet c.cache k ⟨v, now⟩).length := hperm.length_eq
    have hknot : k ∉ (S.take 200).map Prod.fst := by
      intro hk
      rcases List.mem_map.mp hk with ⟨a, ha, hak⟩
      have haC : a ∈ mapSet c.cache k ⟨v, now⟩ :=
        hperm.mem_iff.mp (List.take_subset 200 S ha)
      have hafresh : a = (k, ⟨v, now⟩) := by
        rcases mem_mapSet a haC with h | ⟨_, hne⟩
        · exact h
        · exact absurd hak hne
      have hdrop_ne : S.drop 200 ≠ [] := by
        intro hemp
        have hl : (S.drop 200).length = S.length - 200 := List.length_drop 200 S
        rw [hemp] at hl
        simp at hl
        omega
      obtain ⟨b, hb⟩ := List.exists_mem_of_ne_nil (S.drop 200) hdrop_ne
      have h1 : a.2.timestamp ≤ b.2.timestamp := sorted_take_drop_le 200 hsort a ha b hb
      have h2 : now ≤ b.2.timestamp := by
        rw [hafresh] at h1
        exact h1
      have hbC : b ∈ mapSet c.cache k ⟨v, now⟩ :=
        hperm.mem_iff.mp (List.drop_subset 200 S hb)
      rcases mem_mapSet b hbC with hbf | ⟨hbmem, _⟩
      · have hkeys : S.map Prod.fst =
            (S.take 200).map Prod.fst ++ (S.drop 200).map Prod.fst := by
          rw [← List.map_append, List.take_append_drop]
        unfold NodupKeys at hndS
        rw [hkeys, List.nodup_append] at hndS
        have hbk : k ∈ (S.drop 200).map Prod.fst := by
          have hm := List.mem_map_of_mem Prod.fst hb
          rw [hbf] at hm
          exact hm
        exact hndS.2.2 hk hbk
      · have hlt := hts b hbmem
        omega
    have hfreshF : (k, (⟨v, now⟩ : CacheEntry α)) ∈ (mapSet c.cache k ⟨v, now⟩).filter
        (fun p => decide (p.1 ∉ (S.take 200).map Prod.fst)) :=
      List.mem_filter.mpr ⟨self_mem_mapSet, decide_eq_true hknot⟩
    apply find?_key_unique hfreshF rfl
    intro r hr hrk
    have hrC := (List.mem_filter.mp hr).1
    rcases mem_mapSet r hrC with h | ⟨_, hne⟩
    · exact h
    · exact absurd hrk hne
  · rw [set_cache_eq_of_small c now k v hlen]
    exact find?_mapSet_self c.cache k ⟨v, now⟩

/-- Claim C5: after a `set` at time `tset` (into a well-formed cache all
of whose entries are strictly older), a `get` of that key at any time up
to `tset + TTL` is a hit returning the stored value and bumping the hit
counter; a `get` past `tset + TTL` is a miss that bumps the miss counter
and evicts the entry; and a `get` of an unseen key is a miss bumping the
miss counter. -/
theorem cache_ttl {κ α : Type} [DecidableEq κ] (c : SmartCache κ α) (k : κ) (v : α)
    (tset tget : Nat)
    (hnd : NodupKeys c.cache)
    (hts : ∀ p ∈ c.cache, p.2.timestamp < tset) :
    (tget ≤ tset + c.ttl →
       ((c.set tset k v).get tget k).1 = some v
       ∧ ((c.set tset k v).get tget k).2.hits = c.hits + 1
       ∧ ((c.set tset k v).get tget k).2.misses = c.misses)
    ∧ (tset + c.ttl < tget →
       ((c.set tset k v).get tget k).1 = none
       ∧ ((c.set tset k v).get tget k).2.misses = c.misses + 1
       ∧ ∀ p ∈ ((c.set tset k v).get tget k).2.cache, p.1 ≠ k)
    ∧ (∀ d : SmartCache κ α, (∀ p ∈ d.cache, p.1 ≠ k) →
       (d.get tget k).1 = none ∧ (d.get tget k).2.misses = d.misses + 1) := by
  have hfind := find?_set_self c tset k v hnd hts
  have httl : (c.set tset k v).ttl = c.ttl := set_ttl c tset k v
  refine ⟨fun hle => ?_, fun hgt => ?_, fun d hd => ?_⟩
  · have hcond : ¬ ((c.set tset k v).ttl < tget - tset) := by
      rw [httl]
      omega
    refine ⟨?_, ?_, ?_⟩ <;>
      simp [SmartCache.get, hfind, hcond, set_hits c tset k v, set_misses c tset k v]
  · have hcond : (c.set tset k v).ttl < tget - tset := by
      rw [httl]
      omega
    refine ⟨?_, ?_, ?_⟩
    · simp [SmartCache.get, hfind, hcond]
    · simp [SmartCache.get, hfind, hcond, set_misses c tset k v]
    · intro p hp
      have hp2 : p ∈ (c.set tset k v).cache ∧ ¬ p.1 = k := by
        simpa [SmartCache.get, hfind, hcond] using hp
      exact hp2.2
  · have hfn : d.cache.find? (fun p => decide (p.1 = k)) = none :=
      List.find?_eq_none.mpr (fun p hp => by simpa using hd p hp)
    refine ⟨?_, ?_⟩ <;> simp [SmartCache.get, hfn]

/-- Witness for Claim C5 on a one-entry cache with TTL 30: a write at
time 5 is a hit at time 20 and a miss at time 36. -/
theorem cache_ttl_witness :
    NodupKeys (⟨[("a", ⟨10, 1⟩)], 30, 0, 0⟩ : SmartCache String Nat).cache
    ∧ (∀ p ∈ (⟨[("a", ⟨10, 1⟩)], 30, 0, 0⟩ : SmartCache String Nat).cache,
        p.2.timestamp < 5)
    ∧ 20 ≤ 5 + (⟨[("a", ⟨10, 1⟩)], 30, 0, 0⟩ : SmartCache String Nat).ttl
    ∧ (((⟨[("a", ⟨10, 1⟩)], 30, 0, 0⟩ : SmartCache String Nat).set 5 "b" 7).get 20 "b").1 =
        some 7
    ∧ 5 + (⟨[("a", ⟨10, 1⟩)], 30, 0, 0⟩ : SmartCache String Nat).ttl < 36
    ∧ (((⟨[("a", ⟨10, 1⟩)], 30, 0, 0⟩ : SmartCache String Nat).set 5 "b" 7).get 36 "b").1 =
        none := by
  have hnd : NodupKeys (⟨[("a", ⟨10, 1⟩)], 30, 0, 0⟩ : SmartCache String Nat).cache := by
    decide
  have hts : ∀ p ∈ (⟨[("a", ⟨10, 1⟩)], 30, 0, 0⟩ : SmartCache String Nat).cache,
      p.2.timestamp < 5 := by decide
  refine ⟨hnd, hts, by decide, ?_, by decide, ?_⟩
  · exact ((cache_ttl (⟨[("a", ⟨10, 1⟩)], 30, 0, 0⟩ : SmartCache String Nat) "b" 7 5 20
      hnd hts).1 (by decide)).1
  · exact (((cache_ttl (⟨[("a", ⟨10, 1⟩)], 30, 0, 0⟩ : SmartCache String Nat) "b" 7 5 36
      hnd hts).2).1 (by decide)).1

end V12
